import Mathlib

/-!
Verification of the rag-open-service ingestion-and-retrieval pipeline
(`service/rag_service.go`, the `config` word tables, and the SQL schema in
`migrations/init.sql`).

Strings are modelled as `List Char` (Go strings restricted to valid
sequences of code points; offsets count code points, which coincides with
Go's byte offsets on ASCII inputs).  SQL tables are modelled as Lean lists
of row structures and SQL statements as the corresponding pure list
operations.  Fallible external effects (database driver failures, the
HTTP fetcher) are passed in as `Except` parameters, and Go map iteration
order is passed in as an explicit enumeration parameter.
-/

namespace RagSvc

/-- Go strings modelled as lists of code points. -/
abbrev Str := List Char

/-- Go's `unicode.IsSpace`: Unicode white space (Latin-1 range plus the
`White_Space` property code points). -/
def goIsSpace (c : Char) : Bool :=
  c ∈ ['\t', '\n', '\x0b', '\x0c', '\x0d', ' ', '\x85', '\xa0',
    ' ', ' ', ' ', ' ', ' ', ' ', ' ',
    ' ', ' ', ' ', ' ', ' ', ' ', ' ',
    ' ', ' ', '　']

/-- Go's `strings.TrimSpace`: drop white space from both ends. -/
def goTrim (s : Str) : Str := (s.rdropWhile goIsSpace).dropWhile goIsSpace

/-- The per-character keep condition of `cleanContent`
(`r == '\n' || r == '\t' || (r >= 32 && r != 127)`). -/
def cleanKeep (c : Char) : Bool :=
  c = '\n' || c = '\t' || (32 ≤ c.toNat && c.toNat ≠ 127)

/-- Model of `RAGService.cleanContent`: strip invalid UTF-8 (identity on the
code-point model), remove control characters except newlines and tabs,
then trim surrounding white space. -/
def goCleanContent (s : Str) : Str := goTrim (s.filter cleanKeep)

/-- Go's `strings.Split(content, ".")`. -/
def splitOnDot : Str → List Str
  | [] => [[]]
  | c :: t =>
    if c = '.' then [] :: splitOnDot t
    else
      match splitOnDot t with
      | [] => [[c]]
      | s :: rest => (c :: s) :: rest

/-- Go's `strings.Index(hay, pat)`: position of the first occurrence of
`pat` in `hay` (`none` for Go's `-1`). -/
def listIndex : Str → Str → Option Nat
  | hay, pat =>
    if pat.isPrefixOf hay then some 0
    else
      match hay with
      | [] => none
      | _ :: t => (listIndex t pat).map (· + 1)

/-- Go's `strings.LastIndex(hay, pat)`: position of the last occurrence of
`pat` in `hay` (`none` for Go's `-1`).  The candidate start positions that
carry an occurrence form an ascending list, whose last element is the
last occurrence. -/
def listLastIndex (hay pat : Str) : Option Nat :=
  (((List.range (hay.length + 1)).filter
    (fun i => pat.isPrefixOf (hay.drop i)))).getLast?

/-- The `ChunkInfo` record of `rag_service.go`. -/
structure GoChunk where
  content : Str
  chunkIndex : Nat
  startPos : Nat
  endPos : Nat
deriving DecidableEq, Repr

/-- The sentence-accumulation loop of `RAGService.chunkDocument`,
processing the split sentences with the running chunk `cc`, its start
offset `curStart` and the running chunk index `cIdx`.  The final
`if currentChunk != ""` flush of the source is the base case. -/
def goChunkLoop (content : Str) : List Str → Str → Nat → Nat → List GoChunk
  | [], cc, curStart, cIdx =>
    if cc = [] then []
    else
      let e := match listLastIndex (content.drop curStart) cc with
        | none => content.length
        | some i => curStart + i + cc.length
      [⟨cc, cIdx, curStart, e⟩]
  | s :: rest, cc, curStart, cIdx =>
    let t := goTrim s
    if t = [] then goChunkLoop content rest cc curStart cIdx
    else
      let ss := (match listIndex (content.drop curStart) t with
        | none => 0
        | some i => i) + curStart
      if cc.length + t.length < 1000 then
        goChunkLoop content rest (if cc = [] then t else cc ++ '.' :: ' ' :: t)
          curStart cIdx
      else
        if cc = [] then
          goChunkLoop content rest t ss cIdx
        else
          let e := match listLastIndex (content.take ss) cc with
            | none => ss
            | some i => i + cc.length
          ⟨cc, cIdx, curStart, e⟩ :: goChunkLoop content rest t ss (cIdx + 1)

/-- Model of `RAGService.chunkDocument`, restricted to the pure computation of the
chunk records (the per-chunk embedding generation and the chunk INSERTs
consume this list unchanged). -/
def goChunkDocument (content : Str) : List GoChunk :=
  goChunkLoop content (splitOnDot content) [] 0 0

/-- Slice `content[a:b]` of Go. -/
def sliceStr (s : Str) (a b : Nat) : Str := (s.take b).drop a

/-- The trimmed, non-empty sentences of the split — the ones the chunk
loop actually consumes. -/
def goSentences (content : Str) : List Str :=
  ((splitOnDot content).map goTrim).filter (fun t => !t.isEmpty)

/-- The chunk contents produced by `chunkDocument`. -/
def chunkContents (content : Str) : List Str :=
  (goChunkDocument content).map (fun c => c.content)

/-- Join a group of sentences the way the chunk accumulator does
(`currentChunk += ". "; currentChunk += sentence`). -/
def joinDot : List Str → Str
  | [] => []
  | [s] => s
  | s :: t => s ++ '.' :: ' ' :: joinDot t

/-- Every sentence of `l` could be appended to a chunk that currently
reads `acc`: each step satisfied the source's
`len(currentChunk)+len(sentence) < 1000` test. -/
def okFrom (acc : Str) : List Str → Bool
  | [] => true
  | t :: r => decide (acc.length + t.length < 1000) && okFrom (acc ++ '.' :: ' ' :: t) r

/-- The group was built by legal appends from its first sentence. -/
def okGroup : List Str → Bool
  | [] => true
  | s :: r => okFrom s r

/-- Between two consecutive chunks the seal condition of the source held:
the previous chunk plus the next group's first sentence reached the
1000-character threshold. -/
def sealCond (g g2 : List Str) : Prop :=
  1000 ≤ (joinDot g).length + (g2.head?.getD []).length

/-- Remove all white space, for whitespace-insensitive comparison. -/
def stripWs (s : Str) : Str := s.filter (fun c => !goIsSpace c)

/-- Helper of `goFields`: scan the characters, accumulating the current
word in reverse. -/
def goFieldsAux : Str → Str → List Str
  | [], acc => if acc = [] then [] else [acc.reverse]
  | c :: t, acc =>
    if goIsSpace c then
      if acc = [] then goFieldsAux t []
      else acc.reverse :: goFieldsAux t []
    else goFieldsAux t (c :: acc)

/-- Go's `strings.Fields`: the white-space separated words. -/
def goFields (s : Str) : List Str := goFieldsAux s []

/-- Go's `strings.ToLower` (restricted to the ASCII mapping of
`Char.toLower`; the inputs of interest contain no other cased letters). -/
def goToLower (s : Str) : Str := s.map Char.toLower

/-- The position-weighted frequency accumulated in `wordHash`:
each occurrence of `w` at index `i` contributes `len(words) - i`. -/
def wordFreq (ws : List Str) (w : Str) : Nat :=
  (ws.enum.filter (fun p => p.2 = w)).foldl (fun a p => a + (ws.length - p.1)) 0

/-- The inner character loop of `generateEmbedding`:
`combinedHash = (combinedHash*31 + int(char)) % 1000000` over a word. -/
def hashWord (h : Nat) (w : Str) : Nat :=
  w.foldl (fun a c => (a * 31 + c.toNat) % 1000000) h

/-- The `for word, freq := range wordHash` loop of `generateEmbedding`.
Go map iteration order is unspecified, so the enumeration `order` of the
map's keys is an explicit parameter. -/
def goCombinedHash (ws : List Str) (order : List Str) : Nat :=
  order.foldl (fun h w => (hashWord h w * wordFreq ws w) % 1000000) 0

/-- Predicate: `order` is a possible iteration order of the `wordHash` map built
from the word list `ws`: an enumeration of the distinct words. -/
def validOrder (ws order : List Str) : Prop :=
  order.Nodup ∧ (∀ w ∈ order, w ∈ ws) ∧ (∀ w ∈ ws, w ∈ order)

instance (ws order : List Str) : Decidable (validOrder ws order) := by
  unfold validOrder
  infer_instance

/-- LCG step `seed = (seed*1103515245 + 12345) & 0x7fffffff` (no int64 overflow, so
the mask is a reduction modulo `2^31`). -/
def lcgNext (s : Nat) : Nat := (s * 1103515245 + 12345) % 2147483648

/-- The vector-generation loop of `generateEmbedding`.  Components are
modelled as exact rationals with the same defining expression
`float32(seed%1000)/1000.0 + (float32(i)/float32(dim))*0.1`. -/
def embLoop : Nat → Nat → Nat → List ℚ
  | 0, _, _ => []
  | n + 1, i, s =>
    let s' := lcgNext s
    (((s' % 1000 : Nat) : ℚ) / 1000 + ((i : ℚ) / 1536) * (1 / 10))
      :: embLoop n (i + 1) s'

/-- Model of `RAGService.generateEmbedding`, parameterised by the map iteration
order (the source's only order-sensitive step). -/
def goGenerateEmbedding (text : Str) (order : List Str) : List ℚ :=
  let words := goFields (goToLower (goTrim text))
  embLoop 1536 0 (goCombinedHash words order)

/-- PostgreSQL `LIKE` pattern matching: `%` matches any sequence, `_` any
single character, a backslash escapes the following character; other
characters match themselves.  A pattern ending in a lone backslash
matches nothing (PostgreSQL raises an error there). -/
def likeMatch : Str → Str → Bool
  | [], t => t.isEmpty
  | c :: p, t =>
    if c = '%' then t.tails.any (fun s => likeMatch p s)
    else if c = '\\' then
      match p, t with
      | c2 :: p2, d :: t2 => (c2 == d) && likeMatch p2 t2
      | _, _ => false
    else
      match t with
      | [] => false
      | d :: t2 => (c == d) && likeMatch p t2

/-- PostgreSQL `ILIKE`: case-insensitive `LIKE`. -/
def goILike (pat t : Str) : Bool := likeMatch (goToLower pat) (goToLower t)

/-- Test that `lit` occurs as a contiguous substring of `t` (executable form). -/
def containsB (lit t : Str) : Bool := t.tails.any (fun s => lit.isPrefixOf s)

/-- The character has no special meaning in a `LIKE` pattern. -/
def notWild (c : Char) : Prop := c ≠ '%' ∧ c ≠ '_' ∧ c ≠ '\\'

instance (c : Char) : Decidable (notWild c) := by
  unfold notWild
  infer_instance

/-- A row of the `knowledge_nodes` table (the fields relevant to
`GetKnowledgeGraph` and `DeleteURL`). -/
structure KNode where
  id : Nat
  name : Str
  ntype : Str
  docId : Nat
deriving DecidableEq, Repr

/-- A row of the `knowledge_edges` table. -/
structure KEdge where
  id : Nat
  src : Nat
  tgt : Nat
  rtype : Str
  docId : Nat
deriving DecidableEq, Repr

/-- Model of `RAGService.GetKnowledgeGraph`: for a non-empty query filter the
nodes by `kn.name ILIKE '%' || query || '%'`; if no node matched, return
empty results; otherwise fetch all edges and, for a non-empty query, keep
only the edges with both endpoints in the filtered node set.  (The
`ORDER BY id` of the source is not modelled; rows keep table order.) -/
def getKnowledgeGraph (nodes : List KNode) (edges : List KEdge) (q : Str) :
    List KNode × List KEdge :=
  let ns := if q = [] then nodes
    else nodes.filter (fun n => goILike ('%' :: q ++ ['%']) n.name)
  if q ≠ [] ∧ ns = [] then ([], [])
  else
    let fe := if q = [] then edges
      else edges.filter (fun e =>
        ns.any (fun n => n.id == e.src) && ns.any (fun n => n.id == e.tgt))
    (ns, fe)

/-- The word lists of `config/stopwords.go`. -/
def stopWords : List Str :=
  (["the", "a", "an",
    "and", "or", "but", "nor", "yet", "so",
    "in", "on", "at", "to", "for", "of", "with", "by",
    "from", "up", "about", "into", "through", "during",
    "before", "after", "above", "below", "between", "among",
    "is", "are", "was", "were", "be", "been", "being",
    "have", "has", "had", "do", "does", "did",
    "will", "would", "could", "should", "may", "might", "can",
    "i", "you", "he", "she", "it", "we", "they",
    "me", "him", "her", "us", "them",
    "my", "your", "his", "its", "our", "their",
    "mine", "yours", "hers", "ours", "theirs",
    "this", "that", "these", "those",
    "very", "really", "quite", "rather", "too",
    "just", "only", "even", "still", "already",
    "now", "then", "here", "there", "where", "when",
    "good", "bad", "big", "small", "new", "old",
    "high", "low", "long", "short", "right", "wrong",
    "same", "different", "other", "another", "some", "any",
    "one", "two", "three", "first", "second", "third",
    "today", "yesterday", "tomorrow",
    "thing", "things", "way", "ways", "time", "times",
    "people", "person", "man", "woman", "child", "children",
    "work", "works", "life", "lives", "world", "worlds",
    "day", "days", "year", "years", "month", "months",
    "week", "weeks", "hour", "hours", "minute", "minutes"] :
    List String).map String.toList

/-- Model of `config.IsStopWord`. -/
def isStopWord (w : Str) : Bool := stopWords.contains (goToLower w)

/-- The punctuation cut set `".,!?;:()[]{}'\""` of `extractKeywords`. -/
def punctCutset : Str :=
  ['.', ',', '!', '?', ';', ':', '(', ')', '[', ']',
    Char.ofNat 123, Char.ofNat 125, '\'', '"']

/-- Go's `strings.Trim(word, cutset)`. -/
def goTrimCutset (w : Str) : Str :=
  (w.dropWhile (punctCutset.contains ·)).rdropWhile (punctCutset.contains ·)

/-- Model of `extractKeywords`: lower-case, split into fields, trim punctuation,
keep the words longer than 2 characters that are not stop words. -/
def extractKeywords (q : Str) : List Str :=
  (goFields (goToLower q)).filterMap (fun w =>
    let w' := goTrimCutset w
    if 2 < w'.length && !isStopWord w' then some w' else none)

/-- A candidate row of the hybrid query: a chunk joined with its document
and the value of `c.embedding <=> $1` computed by the store. -/
structure ChunkRow where
  content : Str
  dist : ℚ
  docId : Nat
  url : Str
  title : Str
deriving DecidableEq, Repr

/-- One keyword's match test in the SQL:
`LOWER(c.content) LIKE '%' || LOWER(keyword) || '%'`. -/
def kwLikeMatch (kw content : Str) : Bool :=
  likeMatch ('%' :: goToLower kw ++ ['%']) (goToLower content)

/-- The keyword-match count of the SQL subquery. -/
def kwCount (kws : List Str) (content : Str) : Nat :=
  (kws.filter (fun kw => kwLikeMatch kw content)).length

/-- The `keyword_score` column: 0 when the joined keyword string is
empty, otherwise matches divided by the keyword count. -/
def kwScoreOf (kws : List Str) (content : Str) : ℚ :=
  if kws = [] then 0 else (kwCount kws content : ℚ) / (kws.length : ℚ)

/-- The ranking key of the SQL `ORDER BY`: keyword score descending,
then vector distance ascending (on a row paired with its score). -/
def rankLe (a b : ChunkRow × ℚ) : Bool :=
  decide (b.2 < a.2) || (decide (a.2 = b.2) && decide (a.1.dist ≤ b.1.dist))

/-- Insert into a list sorted by `rankLe`. -/
def insertRanked (x : ChunkRow × ℚ) : List (ChunkRow × ℚ) → List (ChunkRow × ℚ)
  | [] => [x]
  | y :: t => if rankLe x y then x :: y :: t else y :: insertRanked x t

/-- Sort by `rankLe` (one realisation of the SQL `ORDER BY`, which fixes
no order beyond the key). -/
def sortRanked : List (ChunkRow × ℚ) → List (ChunkRow × ℚ)
  | [] => []
  | x :: t => insertRanked x (sortRanked t)

/-- The SQL of `RAGService.Query`: keep the rows with distance below the
0.5 threshold, attach each row's keyword score, order by the ranking key,
and apply `LIMIT 5`. -/
def goQueryRanked (rows : List ChunkRow) (q : Str) : List (ChunkRow × ℚ) :=
  let kws := extractKeywords q
  (sortRanked ((rows.filter (fun r => decide (r.dist < 1/2))).map
    (fun r => (r, kwScoreOf kws r.content)))).take 5

/-- The keyword count under the spec's reading — keywords found as
case-insensitive substrings of the chunk (for comparison with the SQL's
LIKE-based `kwCount`). -/
def substrCount (kws : List Str) (content : Str) : Nat :=
  (kws.filter (fun kw => containsB (goToLower kw) (goToLower content))).length

/-- A `models.SearchResult`. -/
structure SearchResult where
  content : Str
  score : ℚ
  docId : Nat
  url : Str
  title : Str
deriving DecidableEq, Repr

/-- The Go result loop of `RAGService.Query`:
`finalScore := (1 - similarity) * 0.3 + keywordScore * 0.7`. -/
def goQuery (rows : List ChunkRow) (q : Str) : List SearchResult :=
  (goQueryRanked rows q).map (fun p =>
    ⟨p.1.content, (1 - p.1.dist) * (3 / 10) + p.2 * (7 / 10),
      p.1.docId, p.1.url, p.1.title⟩)

/-- A row of the `documents` table. -/
structure DocRow where
  id : Nat
  url : Str
  title : Str
  content : Str
  emb : List ℚ
deriving DecidableEq, Repr

/-- The `DO UPDATE SET title, content, embedding` arm of the document
upsert, applied to the conflicting row (the one with the same `url`,
unique by `idx_documents_url_unique`). -/
def updDoc (url title content : Str) (emb : List ℚ) (r : DocRow) : DocRow :=
  if r.url = url then { r with title := title, content := content, emb := emb }
  else r

/-- Model of `INSERT INTO documents ... ON CONFLICT (url) DO UPDATE ... RETURNING id`
as issued by `ProcessDocument` and `ProcessURL`: update the existing row
for `url` in place if present (returning its id), insert a fresh row
otherwise (returning the fresh id `nid`). -/
def upsertDocument (t : List DocRow) (nid : Nat) (url title content : Str)
    (emb : List ℚ) : List DocRow × Nat :=
  match t.find? (fun r => r.url == url) with
  | some r0 => (t.map (updDoc url title content emb), r0.id)
  | none => (t ++ [⟨nid, url, title, content, emb⟩], nid)

/-- A row of the `url_queue` table. -/
structure QueueRow where
  id : Nat
  url : Str
  status : Str
  err : Option Str
  retry : Nat
deriving DecidableEq, Repr

/-- A row of the `chunks` table (the fields used by the delete path). -/
structure ChunkDbRow where
  id : Nat
  docId : Nat
  content : Str
deriving DecidableEq, Repr

/-- The tables touched by the delete workflow. -/
structure RagDb where
  queue : List QueueRow
  docs : List DocRow
  chunkRows : List ChunkDbRow
  nodes : List KNode
  edges : List KEdge
deriving DecidableEq, Repr

/-- Model of `RAGService.DeleteURL`: error if no `url_queue` row carries the URL;
otherwise mark the queue rows `deleted` in place (keeping them), then
delete, in the source's order, the knowledge edges, knowledge nodes and
chunks whose `document_id` belongs to a document with that URL, and
finally the documents themselves.  Deletions affecting zero rows are not
errors (the SQL DELETEs are total). -/
def deleteURL (db : RagDb) (url : Str) : Except Str RagDb :=
  let cnt := (db.queue.filter (fun r => r.url == url)).length
  if cnt = 0 then .error ("URL not found in queue: ".toList ++ url)
  else
    let q2 := db.queue.map (fun r =>
      if r.url == url then { r with status := "deleted".toList } else r)
    -- rowsAffected of the status UPDATE equals cnt, which is non-zero here,
    -- so the source's rowsAffected == 0 branch cannot fire
    if cnt = 0 then .error ("no rows were updated for URL: ".toList ++ url)
    else
      let docIds := (db.docs.filter (fun d => d.url == url)).map (fun d => d.id)
      let edges2 := db.edges.filter (fun e => !(docIds.contains e.docId))
      let nodes2 := db.nodes.filter (fun n => !(docIds.contains n.docId))
      let chunks2 := db.chunkRows.filter (fun c => !(docIds.contains c.docId))
      let docs2 := db.docs.filter (fun d => !(d.url == url))
      .ok ⟨q2, docs2, chunks2, nodes2, edges2⟩

/-- A `url_queue` row as seen by the worker pool (id and status; the
list order models `ORDER BY created_at ASC`). -/
structure PoolItem where
  id : Nat
  status : Str
deriving DecidableEq, Repr

/-- The shared state of the worker pool: the queue table plus, for each
worker, the id of the item it has claimed and not yet finished (the
worker's local `queueID` variable between the claim and the end of its
loop iteration). -/
structure PoolSt where
  items : List PoolItem
  hold : Nat → Option Nat

/-- Model of `UPDATE url_queue SET status = $2 WHERE id = $1` (every matching row;
ids are unique by the model invariant). -/
def setStatus (items : List PoolItem) (i : Nat) (st : Str) : List PoolItem :=
  items.map (fun it => if it.id == i then { it with status := st } else it)

/-- The `SELECT id FROM url_queue WHERE status = 'pending' ORDER BY
created_at ASC LIMIT 1` of the claim statement. -/
def firstPending (items : List PoolItem) : Option PoolItem :=
  items.find? (fun it => it.status == "pending".toList)

/-- The status of the row with the given id. -/
def statusOf (items : List PoolItem) (i : Nat) : Option Str :=
  (items.find? (fun it => it.id == i)).map (fun it => it.status)

/-- Point update of the worker-hold map. -/
def updHold (h : Nat → Option Nat) (w : Nat) (v : Option Nat) :
    Nat → Option Nat :=
  fun w' => if w' = w then v else h w'

/-- The observable events of the worker pool. -/
inductive PoolEv where
  | claimItem (w i : Nat)
  | beginProcess (w i : Nat)
  | finishItem (w i : Nat) (ok : Bool)
  | releaseItem (w i : Nat)
deriving DecidableEq, Repr

/-- One atomic database step of `processURLQueue` under interleaved
workers.  `claimItem` is the source's single
`UPDATE ... SET status = 'processing' WHERE id = (SELECT ... FOR UPDATE
SKIP LOCKED LIMIT 1) RETURNING id`, atomic by PostgreSQL row locking:
it picks the oldest pending item, marks it `processing`, and records it
as held by the claiming worker.  `beginProcess` is `ProcessURL`'s
re-assertion `SET status = 'processing' WHERE url = $1` (by unique URL,
equivalent to by id).  `finishItem` covers the terminal
`completed`/`failed` updates, and `releaseItem` is the end of the
worker's loop iteration (its local claim goes out of scope). -/
inductive PoolStep : PoolSt → PoolEv → PoolSt → Prop where
  | claimItem {s : PoolSt} {w : Nat} {it : PoolItem} :
      s.hold w = none →
      firstPending s.items = some it →
      PoolStep s (.claimItem w it.id)
        ⟨setStatus s.items it.id "processing".toList,
          updHold s.hold w (some it.id)⟩
  | beginProcess {s : PoolSt} {w i : Nat} :
      s.hold w = some i →
      PoolStep s (.beginProcess w i)
        ⟨setStatus s.items i "processing".toList, s.hold⟩
  | finishItem {s : PoolSt} {w i : Nat} {ok : Bool} :
      s.hold w = some i →
      PoolStep s (.finishItem w i ok)
        ⟨setStatus s.items i
          (if ok then "completed".toList else "failed".toList), s.hold⟩
  | releaseItem {s : PoolSt} {w i : Nat} :
      s.hold w = some i →
      PoolStep s (.releaseItem w i) ⟨s.items, updHold s.hold w none⟩

/-- An interleaved execution of the worker pool. -/
inductive PoolExec : PoolSt → List PoolEv → PoolSt → Prop where
  | done {s : PoolSt} : PoolExec s [] s
  | step {s : PoolSt} {e : PoolEv} {s2 : PoolSt} {tr : List PoolEv} {s3 : PoolSt} :
      PoolStep s e s2 → PoolExec s2 tr s3 → PoolExec s (e :: tr) s3

/-- How often item `i` is claimed along a trace. -/
def claimCount (i : Nat) (tr : List PoolEv) : Nat :=
  (tr.filter (fun e => match e with
    | .claimItem _ j => j == i
    | _ => false)).length

/-- The pool invariant: queue ids are unique, a held item is never
`pending`, and no two workers hold the same item. -/
def Wellformed (s : PoolSt) : Prop :=
  (s.items.map (fun it => it.id)).Nodup ∧
  (∀ w i, s.hold w = some i →
    statusOf s.items i ≠ some "pending".toList) ∧
  (∀ w1 w2 i, w1 ≠ w2 → s.hold w1 = some i → s.hold w2 = some i → False)

/-- Model of `RAGService.ProcessDocument`.  The embedding step of the source never
fails (`generateEmbedding` always returns `nil` error); the fallible
document INSERT is the `storeRes` parameter; the outcomes of
`chunkDocument` and `ExtractEntitiesAndRelations` are the remaining
parameters, which the source only logs. -/
def goProcessDocument (content : Str) (storeRes : Except Str Nat)
    (chunkRes : Except Str Unit) (extractRes : Except Str Unit) :
    Except Str Nat :=
  let cleaned := goCleanContent content
  if cleaned = [] then .error "content is empty after cleaning".toList
  else
    match storeRes with
    | .error e => .error ("failed to store document: ".toList ++ e)
    | .ok docId =>
      -- chunkRes and extractRes are only logged by the source
      .ok docId

end RagSvc

namespace RagSvc

/-! ### C10: idempotence of `cleanContent` -/

theorem mem_of_mem_goTrim {c : Char} {s : Str} (h : c ∈ goTrim s) : c ∈ s :=
  (List.rdropWhile_prefix goIsSpace s).subset
    ((List.dropWhile_suffix goIsSpace).subset h)

theorem goTrim_idem (s : Str) : goTrim (goTrim s) = goTrim s := by
  unfold goTrim
  have h1 : (((s.rdropWhile goIsSpace).dropWhile goIsSpace).rdropWhile goIsSpace)
      = (s.rdropWhile goIsSpace).dropWhile goIsSpace := by
    rw [List.rdropWhile_eq_self_iff]
    intro hne
    obtain ⟨pre, hpre⟩ := List.dropWhile_suffix (l := s.rdropWhile goIsSpace) goIsSpace
    have hu : s.rdropWhile goIsSpace ≠ [] := fun h0 => hne (by rw [h0]; rfl)
    have hq : ((s.rdropWhile goIsSpace).dropWhile goIsSpace).getLast? =
        (s.rdropWhile goIsSpace).getLast? := by
      conv_rhs => rw [← hpre]
      exact (List.getLast?_append_of_ne_nil pre hne).symm
    rw [List.getLast?_eq_getLast _ hne, List.getLast?_eq_getLast _ hu] at hq
    rw [Option.some_inj.mp hq]
    exact List.rdropWhile_last_not goIsSpace s hu
  rw [h1, List.dropWhile_idempotent]

theorem goCleanContent_keep {c : Char} {s : Str} (h : c ∈ goCleanContent s) :
    cleanKeep c := List.of_mem_filter (mem_of_mem_goTrim h)

/-- C10: `cleanContent` is idempotent, so the double cleaning on the URL
ingestion path (`fetchContent` cleans the fetched text, `ProcessURL`
cleans it again) leaves the content unchanged. -/
theorem cleanContent_idempotent (s : Str) :
    goCleanContent (goCleanContent s) = goCleanContent s := by
  unfold goCleanContent
  have hfix : (goTrim (s.filter cleanKeep)).filter cleanKeep
      = goTrim (s.filter cleanKeep) :=
    List.filter_eq_self.mpr (fun c hc => goCleanContent_keep hc)
  rw [hfix, goTrim_idem]

end RagSvc

namespace RagSvc

/-! ### C2: chunk offset correctness (refuted on the code) -/

/-- C2 fails on the code: for the cleaned content `"A.  B."` (double
space), `chunkDocument` produces the single chunk `"A. B"` with offset
range `[0, 6)`, but `content[0:6] = "A.  B."` contains the trailing
sentence period, so it does not reproduce the chunk's content under
whitespace-insensitive comparison. -/
theorem chunk_offsets_not_reproducing :
    goChunkDocument "A.  B.".toList = [⟨"A. B".toList, 0, 0, 6⟩] ∧
    stripWs (sliceStr "A.  B.".toList 0 6) ≠ stripWs "A. B".toList := by
  decide

/-! ### C9: the embedding generator (dimension holds, determinism fails) -/

theorem embLoop_length : ∀ (n i s : Nat), (embLoop n i s).length = n
  | 0, _, _ => rfl
  | n + 1, i, s => by
    unfold embLoop
    rw [List.length_cons, embLoop_length n]

/-- C9 fails on the code: the vector always has 1536 components, but the
seed is folded from `wordHash` by a `for ... range` loop over a Go map,
whose iteration order is unspecified.  For the text `"a b"` the two
possible iteration orders of the two-key map give different vectors, so
two calls with equal input text need not return equal vectors. -/
theorem embedding_seeds_differ :
    lcgNext (goCombinedHash (goFields (goToLower (goTrim "a b".toList)))
        ["a".toList, "b".toList]) % 1000
      ≠ lcgNext (goCombinedHash (goFields (goToLower (goTrim "a b".toList)))
        ["b".toList, "a".toList]) % 1000 := by
  decide

theorem embedding_depends_on_map_order :
    validOrder (goFields (goToLower (goTrim "a b".toList)))
      ["a".toList, "b".toList] ∧
    validOrder (goFields (goToLower (goTrim "a b".toList)))
      ["b".toList, "a".toList] ∧
    (goGenerateEmbedding "a b".toList ["a".toList, "b".toList]).length = 1536 ∧
    (goGenerateEmbedding "a b".toList ["b".toList, "a".toList]).length = 1536 ∧
    goGenerateEmbedding "a b".toList ["a".toList, "b".toList]
      ≠ goGenerateEmbedding "a b".toList ["b".toList, "a".toList] := by
  refine ⟨by decide, by decide, embLoop_length 1536 0 _, embLoop_length 1536 0 _,
    fun h => ?_⟩
  have h0 := congrArg List.head? h
  have h1 : (((lcgNext (goCombinedHash (goFields (goToLower (goTrim "a b".toList)))
            ["a".toList, "b".toList]) % 1000 : Nat) : ℚ) / 1000
          + (((0 : Nat) : ℚ) / 1536) * (1 / 10))
      = (((lcgNext (goCombinedHash (goFields (goToLower (goTrim "a b".toList)))
            ["b".toList, "a".toList]) % 1000 : Nat) : ℚ) / 1000
          + (((0 : Nat) : ℚ) / 1536) * (1 / 10)) := Option.some.inj h0
  have h2 : ((lcgNext (goCombinedHash (goFields (goToLower (goTrim "a b".toList)))
          ["a".toList, "b".toList]) % 1000 : Nat) : ℚ)
      = ((lcgNext (goCombinedHash (goFields (goToLower (goTrim "a b".toList)))
          ["b".toList, "a".toList]) % 1000 : Nat) : ℚ) := by linarith
  exact embedding_seeds_differ (Nat.cast_injective h2)

/-! ### C1: idempotent re-ingestion of a URL -/

theorem updDoc_url (url ti c : Str) (e : List ℚ) (r : DocRow) :
    (updDoc url ti c e r).url = r.url := by
  unfold updDoc
  split <;> rfl

theorem find?_map_updDoc (url ti c : Str) (e : List ℚ) (l : List DocRow) :
    (l.map (updDoc url ti c e)).find? (fun r => r.url == url)
      = (l.find? (fun r => r.url == url)).map (updDoc url ti c e) := by
  induction l with
  | nil => rfl
  | cons r t ih =>
    simp only [List.map_cons, List.find?, updDoc_url]
    by_cases h : (r.url == url) = true
    · rw [h]
      rfl
    · have hf : (r.url == url) = false := by simpa using h
      rw [hf]
      exact ih

theorem countP_map_updDoc (url ti c : Str) (e : List ℚ) (l : List DocRow) :
    (l.map (updDoc url ti c e)).countP (fun r => r.url == url)
      = l.countP (fun r => r.url == url) := by
  rw [List.countP_map]
  apply List.countP_congr
  intro r _
  simp [Function.comp, updDoc_url]

theorem countP_url_le_one (url : Str) {l : List DocRow}
    (hnd : (l.map (·.url)).Nodup) :
    l.countP (fun r => r.url == url) ≤ 1 := by
  induction l with
  | nil => simp
  | cons r t ih =>
    rw [List.map_cons, List.nodup_cons] at hnd
    rw [List.countP_cons]
    by_cases h : (r.url == url) = true
    · have hz : t.countP (fun r => r.url == url) = 0 := by
        rw [List.countP_eq_zero]
        intro x hx hxp
        apply hnd.1
        have h1 : r.url = url := by simpa using h
        have h2 : x.url = url := by simpa using hxp
        rw [h1, ← h2]
        exact List.mem_map_of_mem (·.url) hx
      rw [h, hz]
      simp
    · have hf : (r.url == url) = false := by simpa using h
      rw [hf]
      simpa using ih hnd.2

theorem map_url_map_updDoc (url ti c : Str) (e : List ℚ) (l : List DocRow) :
    (l.map (updDoc url ti c e)).map (·.url) = l.map (·.url) := by
  rw [List.map_map]
  apply List.map_congr_left
  intro r _
  simp [Function.comp, updDoc_url]

theorem updDoc_id (url ti c : Str) (e : List ℚ) (r : DocRow) :
    (updDoc url ti c e r).id = r.id := by
  unfold updDoc
  split <;> rfl

/-- C1: re-submitting the same URL leaves exactly one `documents` row for
that URL; the second upsert updates the row's title, content and
embedding in place (same row count, same id) rather than inserting a
duplicate.  The hypothesis is the uniqueness invariant maintained by
`idx_documents_url_unique`. -/
theorem document_upsert_idempotent
    (t : List DocRow) (n1 n2 : Nat) (url ti1 c1 ti2 c2 : Str) (e1 e2 : List ℚ)
    (hnd : (t.map (·.url)).Nodup) :
    (upsertDocument (upsertDocument t n1 url ti1 c1 e1).1 n2 url ti2 c2 e2).1.countP
        (fun r => r.url == url) = 1 ∧
    (upsertDocument (upsertDocument t n1 url ti1 c1 e1).1 n2 url ti2 c2 e2).1.length
      = (upsertDocument t n1 url ti1 c1 e1).1.length ∧
    (upsertDocument (upsertDocument t n1 url ti1 c1 e1).1 n2 url ti2 c2 e2).2
      = (upsertDocument t n1 url ti1 c1 e1).2 ∧
    (upsertDocument (upsertDocument t n1 url ti1 c1 e1).1 n2 url ti2 c2 e2).1.find?
        (fun r => r.url == url)
      = some ⟨(upsertDocument t n1 url ti1 c1 e1).2, url, ti2, c2, e2⟩ := by
  rcases hfind : t.find? (fun r => r.url == url) with _ | r0
  · -- the URL is new: the first upsert appends a fresh row
    have hz : t.countP (fun r => r.url == url) = 0 :=
      List.countP_eq_zero.mpr (List.find?_eq_none.mp hfind)
    have hnew : ((⟨n1, url, ti1, c1, e1⟩ : DocRow).url == url) = true := by simp
    have h1 : upsertDocument t n1 url ti1 c1 e1
        = (t ++ [⟨n1, url, ti1, c1, e1⟩], n1) := by
      unfold upsertDocument
      rw [hfind]
    have hfind1 : (t ++ [(⟨n1, url, ti1, c1, e1⟩ : DocRow)]).find?
          (fun r => r.url == url)
        = some (⟨n1, url, ti1, c1, e1⟩ : DocRow) := by
      rw [List.find?_append, hfind]
      simp [List.find?]
    have h2 : upsertDocument (t ++ [(⟨n1, url, ti1, c1, e1⟩ : DocRow)]) n2 url ti2 c2 e2
        = ((t ++ [(⟨n1, url, ti1, c1, e1⟩ : DocRow)]).map (updDoc url ti2 c2 e2), n1) := by
      unfold upsertDocument
      rw [hfind1]
    rw [h1, h2]
    refine ⟨?_, by simp, rfl, ?_⟩
    · rw [countP_map_updDoc, List.countP_append, hz]
      simp [List.countP, List.countP.go]
    · rw [find?_map_updDoc, hfind1]
      simp [updDoc]
  · -- the URL already has a row: both upserts update it in place
    have hp : (r0.url == url) = true := (List.find?_eq_some.mp hfind).1
    have hmem : r0 ∈ t := List.mem_of_find?_eq_some hfind
    have hpu : r0.url = url := by simpa using hp
    have h1 : upsertDocument t n1 url ti1 c1 e1
        = (t.map (updDoc url ti1 c1 e1), r0.id) := by
      unfold upsertDocument
      rw [hfind]
    have hfind1 : (t.map (updDoc url ti1 c1 e1)).find? (fun r => r.url == url)
        = some (updDoc url ti1 c1 e1 r0) := by
      rw [find?_map_updDoc, hfind]
      rfl
    have h2 : upsertDocument (t.map (updDoc url ti1 c1 e1)) n2 url ti2 c2 e2
        = ((t.map (updDoc url ti1 c1 e1)).map (updDoc url ti2 c2 e2),
          (updDoc url ti1 c1 e1 r0).id) := by
      unfold upsertDocument
      rw [hfind1]
    have hcnt : t.countP (fun r => r.url == url) = 1 := by
      have hle := countP_url_le_one url hnd
      have hpos : 0 < t.countP (fun r => r.url == url) :=
        List.countP_pos_iff.mpr ⟨r0, hmem, hp⟩
      omega
    rw [h1, h2]
    refine ⟨?_, by simp, updDoc_id _ _ _ _ _, ?_⟩
    · rw [countP_map_updDoc, countP_map_updDoc, hcnt]
    · rw [find?_map_updDoc, hfind1]
      have hupd : updDoc url ti2 c2 e2 (updDoc url ti1 c1 e1 r0)
          = ⟨r0.id, url, ti2, c2, e2⟩ := by
        simp [updDoc, hpu]
      exact congrArg some hupd

/-- Witness: C1 at a concrete table and URL. -/
theorem document_upsert_idempotent_check :
    (upsertDocument (upsertDocument [] 1 "u".toList "t1".toList "c1".toList
        []).1 2 "u".toList "t2".toList "c2".toList []).1.countP
        (fun r => r.url == "u".toList) = 1 ∧
    (upsertDocument (upsertDocument [] 1 "u".toList "t1".toList "c1".toList
        []).1 2 "u".toList "t2".toList "c2".toList []).1.length
      = (upsertDocument [] 1 "u".toList "t1".toList "c1".toList []).1.length ∧
    (upsertDocument (upsertDocument [] 1 "u".toList "t1".toList "c1".toList
        []).1 2 "u".toList "t2".toList "c2".toList []).2
      = (upsertDocument [] 1 "u".toList "t1".toList "c1".toList []).2 ∧
    (upsertDocument (upsertDocument [] 1 "u".toList "t1".toList "c1".toList
        []).1 2 "u".toList "t2".toList "c2".toList []).1.find?
        (fun r => r.url == "u".toList)
      = some ⟨(upsertDocument [] 1 "u".toList "t1".toList "c1".toList []).2,
          "u".toList, "t2".toList, "c2".toList, []⟩ :=
  document_upsert_idempotent [] 1 2 "u".toList "t1".toList "c1".toList
    "t2".toList "c2".toList [] [] (by simp)

/-! ### C8: error conditions of `ProcessDocument` -/

/-- C8: `ProcessDocument` returns an error exactly when cleaning yields
empty content, embedding generation fails (never, in the source), or the
document store fails; the outcomes of chunking and extraction never
influence the result. -/
theorem processDocument_error_iff (content : Str) (storeRes : Except Str Nat)
    (chunkRes extractRes : Except Str Unit) :
    ((goProcessDocument content storeRes chunkRes extractRes).isOk = false
      ↔ (goCleanContent content = [] ∨ storeRes.isOk = false)) ∧
    (∀ chunkRes2 extractRes2 : Except Str Unit,
      goProcessDocument content storeRes chunkRes extractRes
        = goProcessDocument content storeRes chunkRes2 extractRes2) := by
  constructor
  · unfold goProcessDocument
    by_cases h : goCleanContent content = [] <;>
      cases storeRes <;>
      simp [h, Except.isOk, Except.toBool]
  · intro c2 e2
    rfl

/-! ### LIKE patterns: `'%' || lit || '%'` is substring containment when
`lit` has no wildcard characters -/

theorem isPrefixOf_eq_true_iff :
    ∀ (a l : Str), a.isPrefixOf l = true ↔ ∃ y, l = a ++ y
  | [], l => by simp [List.isPrefixOf]
  | c :: a', [] => by simp [List.isPrefixOf]
  | c :: a', d :: l' => by
    simp only [List.isPrefixOf, Bool.and_eq_true, beq_iff_eq,
      isPrefixOf_eq_true_iff a' l']
    constructor
    · rintro ⟨rfl, y, rfl⟩
      exact ⟨y, rfl⟩
    · rintro ⟨y, hy⟩
      cases hy
      exact ⟨rfl, y, rfl⟩

theorem tails_any_isEmpty : ∀ t : Str, t.tails.any (fun s => s.isEmpty) = true
  | [] => rfl
  | c :: t => by
    rw [List.tails_cons, List.any_cons, tails_any_isEmpty t, Bool.or_true]

theorem likeMatch_pct (p t : Str) :
    likeMatch ('%' :: p) t = t.tails.any (fun s => likeMatch p s) := by
  rw [likeMatch.eq_def]
  dsimp only
  rw [if_pos rfl]

theorem likeMatch_plain {c : Char} (hc1 : c ≠ '%') (hc3 : c ≠ '\\') (p t : Str) :
    likeMatch (c :: p) t
      = match t with
        | [] => false
        | d :: t2 => (c == d) && likeMatch p t2 := by
  rw [likeMatch.eq_def]
  dsimp only
  rw [if_neg hc1, if_neg hc3]

theorem likeMatch_lit (lit : Str) (h : ∀ c ∈ lit, notWild c) (t : Str) :
    likeMatch (lit ++ ['%']) t = lit.isPrefixOf t := by
  induction lit generalizing t with
  | nil =>
    rw [List.nil_append, likeMatch_pct]
    have he : (fun s : Str => likeMatch [] s) = fun s => s.isEmpty :=
      funext fun s => by rw [likeMatch.eq_def]
    rw [he, tails_any_isEmpty]
    cases t <;> rfl
  | cons c lit' ih =>
    obtain ⟨hc1, hc2, hc3⟩ := h c (by simp)
    have h' : ∀ x ∈ lit', notWild x := fun x hx => h x (by simp [hx])
    rw [List.cons_append, likeMatch_plain hc1 hc3]
    cases t with
    | nil => rfl
    | cons d t2 =>
      dsimp only
      rw [ih h']
      rfl

theorem likeMatch_pct_lit (lit : Str) (h : ∀ c ∈ lit, notWild c) (t : Str) :
    likeMatch ('%' :: (lit ++ ['%'])) t = containsB lit t := by
  rw [likeMatch_pct]
  unfold containsB
  exact congrArg t.tails.any (funext fun s => likeMatch_lit lit h s)

theorem containsB_iff (lit t : Str) :
    containsB lit t = true ↔ ∃ x y, t = x ++ lit ++ y := by
  unfold containsB
  rw [List.any_eq_true]
  constructor
  · rintro ⟨s, hs, hp⟩
    obtain ⟨x, rfl⟩ := (List.mem_tails s t).mp hs
    obtain ⟨y, rfl⟩ := (isPrefixOf_eq_true_iff lit s).mp hp
    exact ⟨x, y, by simp⟩
  · rintro ⟨x, y, rfl⟩
    refine ⟨lit ++ y, (List.mem_tails _ _).mpr ⟨x, by simp⟩, ?_⟩
    exact (isPrefixOf_eq_true_iff lit _).mpr ⟨y, rfl⟩

theorem toNat_ofNat_small {n : Nat} (h : n < 55296) : (Char.ofNat n).toNat = n := by
  unfold Char.ofNat
  rw [dif_pos (Or.inl h)]
  rfl

theorem toLower_notWild {c : Char} (h : notWild c) : notWild (Char.toLower c) := by
  obtain ⟨h1, h2, h3⟩ := h
  unfold Char.toLower
  dsimp only
  split
  case isTrue hr =>
    have hv : (Char.ofNat (c.toNat + 32)).toNat = c.toNat + 32 :=
      toNat_ofNat_small (by omega)
    refine ⟨?_, ?_, ?_⟩ <;> intro he <;>
      rw [he] at hv <;> simp at hv <;> omega
  case isFalse => exact ⟨h1, h2, h3⟩

theorem goToLower_notWild {q : Str} (h : ∀ c ∈ q, notWild c) :
    ∀ c ∈ goToLower q, notWild c := by
  intro c hc
  obtain ⟨c0, hc0, rfl⟩ := List.mem_map.mp hc
  exact toLower_notWild (h c0 hc0)

theorem goToLower_pct_pattern (q : Str) :
    goToLower ('%' :: q ++ ['%']) = '%' :: goToLower q ++ ['%'] := by
  have : Char.toLower '%' = '%' := by decide
  simp [goToLower, this]

/-! ### C5: `GetKnowledgeGraph` (corrected: LIKE wildcards in the query) -/

/-- C5 as stated fails on the code: for the query `"%"` (a LIKE wildcard)
the node named `"abc"` is returned although `"%"` is not a substring of
its name — `ILIKE '%' || query || '%'` is not substring matching for
queries containing wildcard characters. -/
theorem knowledge_graph_wildcard_node :
    (getKnowledgeGraph [⟨1, "abc".toList, "concept".toList, 7⟩] [] "%".toList).1
      = [⟨1, "abc".toList, "concept".toList, 7⟩] ∧
    containsB (goToLower "%".toList) (goToLower "abc".toList) = false := by
  decide

theorem filter_ilike_eq_filter_contains (nodes : List KNode) (q : Str)
    (hq : ∀ c ∈ q, notWild c) :
    nodes.filter (fun n => goILike ('%' :: q ++ ['%']) n.name)
      = nodes.filter (fun n => containsB (goToLower q) (goToLower n.name)) := by
  apply List.filter_congr
  intro n _
  unfold goILike
  rw [goToLower_pct_pattern]
  exact likeMatch_pct_lit (goToLower q) (goToLower_notWild hq) (goToLower n.name)

/-- C5 amended: with an empty query `GetKnowledgeGraph` returns all nodes
and edges; with a non-empty query containing no LIKE wildcard or escape
characters it returns exactly the nodes whose name contains the query as
a case-insensitive substring; and (given the schema's foreign keys from
`knowledge_edges` to `knowledge_nodes`) every returned edge has both its
endpoints in the returned node set. -/
theorem knowledge_graph_query (nodes : List KNode) (edges : List KEdge) (q : Str)
    (hfk : ∀ e ∈ edges, (∃ n ∈ nodes, n.id = e.src) ∧ (∃ n ∈ nodes, n.id = e.tgt))
    (hq : ∀ c ∈ q, notWild c) :
    (q = [] → getKnowledgeGraph nodes edges q = (nodes, edges)) ∧
    ((getKnowledgeGraph nodes edges q).1
      = if q = [] then nodes
        else nodes.filter (fun n => containsB (goToLower q) (goToLower n.name))) ∧
    (∀ e ∈ (getKnowledgeGraph nodes edges q).2,
      (∃ n ∈ (getKnowledgeGraph nodes edges q).1, n.id = e.src) ∧
      (∃ n ∈ (getKnowledgeGraph nodes edges q).1, n.id = e.tgt)) := by
  by_cases hq0 : q = []
  · subst hq0
    have hkg : getKnowledgeGraph nodes edges [] = (nodes, edges) := by
      unfold getKnowledgeGraph
      simp
    refine ⟨fun _ => hkg, by rw [hkg, if_pos rfl], ?_⟩
    rw [hkg]
    exact hfk
  · have hfl := filter_ilike_eq_filter_contains nodes q hq
    by_cases hns : nodes.filter (fun n => goILike ('%' :: q ++ ['%']) n.name) = []
    · have hkg : getKnowledgeGraph nodes edges q = ([], []) := by
        unfold getKnowledgeGraph
        rw [if_neg hq0, if_pos ⟨hq0, hns⟩]
      rw [hkg]
      refine ⟨fun h => absurd h hq0, ?_, by simp⟩
      rw [if_neg hq0, ← hfl, hns]
    · have hkg : getKnowledgeGraph nodes edges q
          = (nodes.filter (fun n => goILike ('%' :: q ++ ['%']) n.name),
            edges.filter (fun e =>
              (nodes.filter (fun n => goILike ('%' :: q ++ ['%']) n.name)).any
                  (fun n => n.id == e.src) &&
              (nodes.filter (fun n => goILike ('%' :: q ++ ['%']) n.name)).any
                  (fun n => n.id == e.tgt))) := by
        unfold getKnowledgeGraph
        rw [if_neg hq0]
        dsimp only
        rw [if_neg (fun hand => hns hand.2), if_neg hq0]
      rw [hkg]
      refine ⟨fun h => absurd h hq0, by rw [if_neg hq0, hfl], ?_⟩
      intro e he
      have hm := List.mem_filter.mp he
      have hb := hm.2
      rw [Bool.and_eq_true] at hb
      constructor
      · obtain ⟨n, hn, hid⟩ := List.any_eq_true.mp hb.1
        exact ⟨n, hn, by simpa using hid⟩
      · obtain ⟨n, hn, hid⟩ := List.any_eq_true.mp hb.2
        exact ⟨n, hn, by simpa using hid⟩

/-- Witness: C5 (amended) at a concrete graph and query. -/
theorem knowledge_graph_query_check :
    ("ad".toList = [] →
      getKnowledgeGraph [⟨1, "Ada".toList, "person".toList, 3⟩]
        [⟨1, 1, 1, "is_a".toList, 3⟩] "ad".toList
      = ([⟨1, "Ada".toList, "person".toList, 3⟩], [⟨1, 1, 1, "is_a".toList, 3⟩])) ∧
    ((getKnowledgeGraph [⟨1, "Ada".toList, "person".toList, 3⟩]
        [⟨1, 1, 1, "is_a".toList, 3⟩] "ad".toList).1
      = if "ad".toList = [] then [⟨1, "Ada".toList, "person".toList, 3⟩]
        else List.filter
          (fun n => containsB (goToLower "ad".toList) (goToLower n.name))
          [⟨1, "Ada".toList, "person".toList, 3⟩]) ∧
    (∀ e ∈ (getKnowledgeGraph [⟨1, "Ada".toList, "person".toList, 3⟩]
        [⟨1, 1, 1, "is_a".toList, 3⟩] "ad".toList).2,
      (∃ n ∈ (getKnowledgeGraph [⟨1, "Ada".toList, "person".toList, 3⟩]
        [⟨1, 1, 1, "is_a".toList, 3⟩] "ad".toList).1, n.id = e.src) ∧
      (∃ n ∈ (getKnowledgeGraph [⟨1, "Ada".toList, "person".toList, 3⟩]
        [⟨1, 1, 1, "is_a".toList, 3⟩] "ad".toList).1, n.id = e.tgt)) :=
  knowledge_graph_query [⟨1, "Ada".toList, "person".toList, 3⟩]
    [⟨1, 1, 1, "is_a".toList, 3⟩] "ad".toList (by decide) (by decide)

/-! ### C6: `DeleteURL` -/

/-- C6: `DeleteURL` fails with its not-found error exactly when no queue
row carries the URL; on success the queue keeps all its rows with the
matching ones marked `deleted`, and no chunk, knowledge node or knowledge
edge referencing a former document id of that URL remains, nor the
document row itself. -/
theorem deleteURL_spec (db : RagDb) (url : Str) :
    ((deleteURL db url).isOk = true
      ↔ db.queue.any (fun r => r.url == url) = true) ∧
    (∀ db2, deleteURL db url = .ok db2 →
      db2.queue.length = db.queue.length ∧
      (∀ r ∈ db.queue, r.url = url →
        ({ r with status := "deleted".toList } : QueueRow) ∈ db2.queue) ∧
      (∀ c ∈ db2.chunkRows,
        c.docId ∉ (db.docs.filter (fun d => d.url == url)).map (fun d => d.id)) ∧
      (∀ n ∈ db2.nodes,
        n.docId ∉ (db.docs.filter (fun d => d.url == url)).map (fun d => d.id)) ∧
      (∀ e ∈ db2.edges,
        e.docId ∉ (db.docs.filter (fun d => d.url == url)).map (fun d => d.id)) ∧
      (∀ d ∈ db2.docs, d.url ≠ url)) := by
  by_cases hcnt : (db.queue.filter (fun r => r.url == url)).length = 0
  · have hok : deleteURL db url
        = .error ("URL not found in queue: ".toList ++ url) := by
      unfold deleteURL
      rw [if_pos hcnt]
    have hnil := List.length_eq_zero.mp hcnt
    have hany : db.queue.any (fun r => r.url == url) = false := by
      rw [List.any_eq_false]
      intro x hx hb
      have hmem : x ∈ db.queue.filter (fun r => r.url == url) :=
        List.mem_filter.mpr ⟨hx, hb⟩
      rw [hnil] at hmem
      cases hmem
    constructor
    · rw [hok, hany]
      simp [Except.isOk, Except.toBool]
    · intro db2 h
      rw [hok] at h
      cases h
  · have hok : deleteURL db url
        = .ok ⟨db.queue.map (fun r =>
            if r.url == url then { r with status := "deleted".toList } else r),
          db.docs.filter (fun d => !(d.url == url)),
          db.chunkRows.filter (fun c =>
            !(((db.docs.filter (fun d => d.url == url)).map
              (fun d => d.id)).contains c.docId)),
          db.nodes.filter (fun n =>
            !(((db.docs.filter (fun d => d.url == url)).map
              (fun d => d.id)).contains n.docId)),
          db.edges.filter (fun e =>
            !(((db.docs.filter (fun d => d.url == url)).map
              (fun d => d.id)).contains e.docId))⟩ := by
      unfold deleteURL
      rw [if_neg hcnt, if_neg hcnt]
    constructor
    · rw [hok]
      have hpos : 0 < (db.queue.filter (fun r => r.url == url)).length :=
        Nat.pos_of_ne_zero hcnt
      obtain ⟨x, hx⟩ := List.exists_mem_of_length_pos hpos
      have hx' := List.mem_filter.mp hx
      simp only [Except.isOk, Except.toBool, true_iff]
      exact List.any_eq_true.mpr ⟨x, hx'.1, hx'.2⟩
    · intro db2 h
      rw [hok] at h
      cases h
      refine ⟨by simp, ?_, ?_, ?_, ?_, ?_⟩
      · intro r hr hu
        refine List.mem_map.mpr ⟨r, hr, ?_⟩
        rw [if_pos (by simp [hu])]
      · intro c hc
        have h2 := (List.mem_filter.mp hc).2
        simpa using h2
      · intro n hn
        have h2 := (List.mem_filter.mp hn).2
        simpa using h2
      · intro e he
        have h2 := (List.mem_filter.mp he).2
        simpa using h2
      · intro d hd
        have h2 := (List.mem_filter.mp hd).2
        simpa using h2

/-- Witness: C6 at a concrete database and URL. -/
theorem deleteURL_spec_check :
    ((deleteURL ⟨[⟨1, "u".toList, "completed".toList, none, 0⟩],
        [⟨4, "u".toList, "t".toList, "c".toList, []⟩], [⟨9, 4, "c".toList⟩],
        [⟨2, "Ada".toList, "person".toList, 4⟩],
        [⟨3, 2, 2, "is_a".toList, 4⟩]⟩ "u".toList).isOk = true
      ↔ ([⟨1, "u".toList, "completed".toList, none, 0⟩] : List QueueRow).any
          (fun r => r.url == "u".toList) = true) ∧
    (∀ db2, deleteURL ⟨[⟨1, "u".toList, "completed".toList, none, 0⟩],
        [⟨4, "u".toList, "t".toList, "c".toList, []⟩], [⟨9, 4, "c".toList⟩],
        [⟨2, "Ada".toList, "person".toList, 4⟩],
        [⟨3, 2, 2, "is_a".toList, 4⟩]⟩ "u".toList = .ok db2 →
      db2.queue.length
        = ([⟨1, "u".toList, "completed".toList, none, 0⟩] : List QueueRow).length ∧
      (∀ r ∈ ([⟨1, "u".toList, "completed".toList, none, 0⟩] : List QueueRow),
        r.url = "u".toList →
        ({ r with status := "deleted".toList } : QueueRow) ∈ db2.queue) ∧
      (∀ c ∈ db2.chunkRows,
        c.docId ∉ (([⟨4, "u".toList, "t".toList, "c".toList, []⟩] :
          List DocRow).filter (fun d => d.url == "u".toList)).map
            (fun d => d.id)) ∧
      (∀ n ∈ db2.nodes,
        n.docId ∉ (([⟨4, "u".toList, "t".toList, "c".toList, []⟩] :
          List DocRow).filter (fun d => d.url == "u".toList)).map
            (fun d => d.id)) ∧
      (∀ e ∈ db2.edges,
        e.docId ∉ (([⟨4, "u".toList, "t".toList, "c".toList, []⟩] :
          List DocRow).filter (fun d => d.url == "u".toList)).map
            (fun d => d.id)) ∧
      (∀ d ∈ db2.docs, d.url ≠ "u".toList)) :=
  deleteURL_spec ⟨[⟨1, "u".toList, "completed".toList, none, 0⟩],
    [⟨4, "u".toList, "t".toList, "c".toList, []⟩], [⟨9, 4, "c".toList⟩],
    [⟨2, "Ada".toList, "person".toList, 4⟩],
    [⟨3, 2, 2, "is_a".toList, 4⟩]⟩ "u".toList

/-! ### C4: the hybrid query (corrected: LIKE wildcards in keywords) -/

theorem rankLe_eq_true_iff (a b : ChunkRow × ℚ) :
    rankLe a b = true ↔ (b.2 < a.2 ∨ (a.2 = b.2 ∧ a.1.dist ≤ b.1.dist)) := by
  unfold rankLe
  simp

theorem rankLe_total {a b : ChunkRow × ℚ} (h : rankLe a b = false) :
    rankLe b a = true := by
  rw [rankLe_eq_true_iff]
  rw [← Bool.not_eq_true, rankLe_eq_true_iff] at h
  push_neg at h
  rcases lt_trichotomy a.2 b.2 with hlt | heq | hgt
  · exact Or.inl hlt
  · exact Or.inr ⟨heq.symm, le_of_lt (h.2 heq)⟩
  · exact absurd hgt (not_lt.mpr h.1)

theorem rankLe_trans {a b c : ChunkRow × ℚ} (hab : rankLe a b = true)
    (hbc : rankLe b c = true) : rankLe a c = true := by
  rw [rankLe_eq_true_iff] at hab hbc ⊢
  rcases hab with h1 | ⟨h1, h1d⟩ <;> rcases hbc with h2 | ⟨h2, h2d⟩
  · exact Or.inl (h2.trans h1)
  · exact Or.inl (h2 ▸ h1)
  · exact Or.inl (h1 ▸ h2)
  · exact Or.inr ⟨h1.trans h2, h1d.trans h2d⟩

theorem insertRanked_perm (x : ChunkRow × ℚ) :
    ∀ l : List (ChunkRow × ℚ), (insertRanked x l).Perm (x :: l)
  | [] => List.Perm.refl _
  | y :: t => by
    unfold insertRanked
    split
    · exact List.Perm.refl _
    · exact ((insertRanked_perm x t).cons y).trans (List.Perm.swap x y t)

theorem sortRanked_perm : ∀ l : List (ChunkRow × ℚ), (sortRanked l).Perm l
  | [] => List.Perm.refl _
  | x :: t =>
    (insertRanked_perm x (sortRanked t)).trans ((sortRanked_perm t).cons x)

theorem insertRanked_pairwise (x : ChunkRow × ℚ) :
    ∀ l : List (ChunkRow × ℚ),
      l.Pairwise (fun a b => rankLe a b = true) →
      (insertRanked x l).Pairwise (fun a b => rankLe a b = true)
  | [], _ => by simp [insertRanked]
  | y :: t, hp => by
    unfold insertRanked
    rw [List.pairwise_cons] at hp
    split
    case isTrue hxy =>
      rw [List.pairwise_cons]
      refine ⟨?_, List.pairwise_cons.mpr hp⟩
      intro a ha
      rcases List.mem_cons.mp ha with rfl | hat
      · exact hxy
      · exact rankLe_trans hxy (hp.1 a hat)
    case isFalse hxy =>
      rw [List.pairwise_cons]
      refine ⟨?_, insertRanked_pairwise x t hp.2⟩
      intro a ha
      have ha' := (insertRanked_perm x t).mem_iff.mp ha
      rcases List.mem_cons.mp ha' with rfl | hat
      · exact rankLe_total (Bool.eq_false_iff.mpr hxy)
      · exact hp.1 a hat

theorem sortRanked_pairwise : ∀ l : List (ChunkRow × ℚ),
    (sortRanked l).Pairwise (fun a b => rankLe a b = true)
  | [] => List.Pairwise.nil
  | x :: t => insertRanked_pairwise x (sortRanked t) (sortRanked_pairwise t)

/-- Lemma: `kwScoreOf` agrees with the spec's substring-count formula when no
keyword contains a LIKE wildcard or escape character (rational division
by zero is zero, which also matches the SQL's empty-keyword case). -/
theorem kwScoreOf_eq_substr (kws : List Str) (content : Str)
    (hw : ∀ kw ∈ kws, ∀ c ∈ kw, notWild c) :
    kwScoreOf kws content
      = (substrCount kws content : ℚ) / (kws.length : ℚ) := by
  unfold kwScoreOf
  have hc : kwCount kws content = substrCount kws content := by
    unfold kwCount substrCount
    congr 1
    apply List.filter_congr
    intro kw hkw
    unfold kwLikeMatch
    exact likeMatch_pct_lit (goToLower kw) (goToLower_notWild (hw kw hkw))
      (goToLower content)
  split
  case isTrue h =>
    subst h
    simp [substrCount]
  case isFalse h =>
    rw [hc]

/-- C4 as stated fails on the code: for the query `"zebra 100%"` the
keyword `"100%"` contains a LIKE wildcard, so the SQL counts it as
matching the chunk `"zebra x100x"` although it is not a substring of it;
the assigned score is 1 while the claimed formula gives 13/20. -/
theorem query_wildcard_keyword_score :
    (goQuery [⟨"zebra x100x".toList, 0, 1, "u".toList, "t".toList⟩]
        "zebra 100%".toList).map (fun r => r.score) = [1] ∧
    (1 - (0 : ℚ)) * (3 / 10)
      + ((substrCount (extractKeywords "zebra 100%".toList)
            "zebra x100x".toList : ℚ)
          / ((extractKeywords "zebra 100%".toList).length : ℚ)) * (7 / 10)
      ≠ 1 := by
  constructor
  · have hkws : extractKeywords "zebra 100%".toList
        = ["zebra".toList, "100%".toList] := by decide
    have hd : (decide ((0 : ℚ) < 1 / 2)) = true := by
      rw [decide_eq_true_eq]
      norm_num
    have hcnt : kwCount ["zebra".toList, "100%".toList] "zebra x100x".toList
        = 2 := by decide
    unfold goQuery goQueryRanked
    rw [hkws]
    simp only [List.filter, hd, List.map, sortRanked, insertRanked, List.take,
      List.map]
    have hsc : kwScoreOf ["zebra".toList, "100%".toList] "zebra x100x".toList
        = 1 := by
      unfold kwScoreOf
      rw [if_neg (by decide), hcnt]
      norm_num
    rw [hsc]
    norm_num
  · have hsub : substrCount (extractKeywords "zebra 100%".toList)
        "zebra x100x".toList = 1 := by decide
    have hlen : (extractKeywords "zebra 100%".toList).length = 2 := by decide
    rw [hsub, hlen]
    norm_num

/-- C4 amended: `Query` considers only chunks with vector distance below
the 0.5 threshold, and — provided no extracted keyword contains a LIKE
wildcard or escape character — assigns each candidate the keyword score
(substring matches / keyword count) and the final score
`0.3 * (1 - distance) + 0.7 * keywordScore`, orders results by keyword
score descending then distance ascending, and returns at most 5. -/
theorem query_hybrid_ranking (rows : List ChunkRow) (q : Str)
    (hw : ∀ kw ∈ extractKeywords q, ∀ c ∈ kw, notWild c) :
    (goQuery rows q).length ≤ 5 ∧
    (∀ p ∈ goQueryRanked rows q, p.1 ∈ rows ∧ p.1.dist < 1 / 2 ∧
      p.2 = (substrCount (extractKeywords q) p.1.content : ℚ)
        / ((extractKeywords q).length : ℚ)) ∧
    (goQueryRanked rows q).Pairwise
      (fun a b => b.2 < a.2 ∨ (a.2 = b.2 ∧ a.1.dist ≤ b.1.dist)) ∧
    goQuery rows q = (goQueryRanked rows q).map (fun p =>
      ⟨p.1.content, (1 - p.1.dist) * (3 / 10) + p.2 * (7 / 10),
        p.1.docId, p.1.url, p.1.title⟩) := by
  refine ⟨?_, ?_, ?_, rfl⟩
  · unfold goQuery
    rw [List.length_map]
    unfold goQueryRanked
    exact List.length_take_le 5 _
  · intro p hp
    unfold goQueryRanked at hp
    have hp1 := List.take_subset 5 _ hp
    have hp2 := (sortRanked_perm _).mem_iff.mp hp1
    obtain ⟨r, hr, rfl⟩ := List.mem_map.mp hp2
    have hr1 := List.mem_filter.mp hr
    refine ⟨hr1.1, of_decide_eq_true hr1.2, ?_⟩
    exact kwScoreOf_eq_substr (extractKeywords q) r.content hw
  · have hpw := sortRanked_pairwise
      ((rows.filter (fun r => decide (r.dist < 1/2))).map
        (fun r => (r, kwScoreOf (extractKeywords q) r.content)))
    unfold goQueryRanked
    refine List.Pairwise.sublist (List.take_sublist 5 _) (hpw.imp ?_)
    intro a b hab
    exact (rankLe_eq_true_iff a b).mp hab

/-- Witness: C4 (amended) at a concrete corpus and query. -/
theorem query_hybrid_ranking_check :
    (goQuery [⟨"Ada wrote programs".toList, 0, 1, "u".toList, "t".toList⟩]
        "ada sums".toList).length ≤ 5 ∧
    (∀ p ∈ goQueryRanked
        [⟨"Ada wrote programs".toList, 0, 1, "u".toList, "t".toList⟩]
        "ada sums".toList,
      p.1 ∈ [⟨"Ada wrote programs".toList, 0, 1, "u".toList, "t".toList⟩] ∧
      p.1.dist < 1 / 2 ∧
      p.2 = (substrCount (extractKeywords "ada sums".toList)
          p.1.content : ℚ)
        / ((extractKeywords "ada sums".toList).length : ℚ)) ∧
    (goQueryRanked [⟨"Ada wrote programs".toList, 0, 1, "u".toList, "t".toList⟩]
        "ada sums".toList).Pairwise
      (fun a b => b.2 < a.2 ∨ (a.2 = b.2 ∧ a.1.dist ≤ b.1.dist)) ∧
    goQuery [⟨"Ada wrote programs".toList, 0, 1, "u".toList, "t".toList⟩]
        "ada sums".toList
      = (goQueryRanked
          [⟨"Ada wrote programs".toList, 0, 1, "u".toList, "t".toList⟩]
          "ada sums".toList).map (fun p =>
        ⟨p.1.content, (1 - p.1.dist) * (3 / 10) + p.2 * (7 / 10),
          p.1.docId, p.1.url, p.1.title⟩) :=
  query_hybrid_ranking
    [⟨"Ada wrote programs".toList, 0, 1, "u".toList, "t".toList⟩]
    "ada sums".toList (by decide)

/-! ### C7: the sentence-accumulation chunker -/

theorem joinDot_cons₂ (a b : Str) (l : List Str) :
    joinDot (a :: b :: l) = a ++ '.' :: ' ' :: joinDot (b :: l) := rfl

theorem joinDot_snoc : ∀ (g : List Str), g ≠ [] → ∀ t : Str,
    joinDot (g ++ [t]) = joinDot g ++ '.' :: ' ' :: t
  | [], h, _ => absurd rfl h
  | [_], _, _ => rfl
  | a :: b :: g', _, t => by
    show joinDot (a :: b :: (g' ++ [t])) = joinDot (a :: b :: g') ++ '.' :: ' ' :: t
    rw [joinDot_cons₂, joinDot_cons₂]
    have ih : joinDot (b :: (g' ++ [t])) = joinDot (b :: g') ++ '.' :: ' ' :: t := by
      rw [← List.cons_append]
      exact joinDot_snoc (b :: g') (by simp) t
    rw [ih]
    simp

theorem okFrom_cons (acc t : Str) (r : List Str) :
    okFrom acc (t :: r)
      = (decide (acc.length + t.length < 1000)
          && okFrom (acc ++ '.' :: ' ' :: t) r) := rfl

theorem okFrom_short {acc : Str} : ∀ {l : List Str}, okFrom acc l = true →
    ∀ s ∈ l, s.length < 1000 := by
  intro l
  induction l generalizing acc with
  | nil => intro _ s hs; cases hs
  | cons t r ihr =>
    intro h s hs
    rw [okFrom_cons, Bool.and_eq_true, decide_eq_true_eq] at h
    rcases List.mem_cons.mp hs with rfl | hsr
    · omega
    · exact ihr h.2 s hsr

theorem okGroup_big_singleton {g : List Str} (h : okGroup g = true) :
    ∀ s ∈ g, 1000 ≤ s.length → g = [s] := by
  intro s hs hlen
  match g, hs with
  | [a], hs =>
    rcases List.mem_singleton.mp hs with rfl
    rfl
  | a :: b :: r, hs =>
    exfalso
    have h' : okFrom a (b :: r) = true := h
    rcases List.mem_cons.mp hs with rfl | hsr
    · rw [okFrom_cons, Bool.and_eq_true, decide_eq_true_eq] at h'
      omega
    · have := okFrom_short h' s hsr
      omega

/-- The invariant of the chunk loop once the running chunk is non-empty:
the output chunks realise a grouping of the remaining (trimmed,
non-empty) sentences, the pending group `g` is extended by some legal
appends `e`, and consecutive chunks are separated by the seal
condition. -/
theorem chunkLoop_groups (content : Str) :
    ∀ (sents : List Str) (cs ci : Nat) (g : List Str),
      g ≠ [] → joinDot g ≠ [] →
      ∃ e gs,
        (goChunkLoop content sents (joinDot g) cs ci).map (fun c => c.content)
          = joinDot (g ++ e) :: gs.map joinDot ∧
        ((g ++ e) :: gs).flatten
          = g ++ (sents.map goTrim).filter (fun t => !t.isEmpty) ∧
        okFrom (joinDot g) e = true ∧
        (∀ x ∈ gs, x ≠ [] ∧ okGroup x = true) ∧
        List.Chain' sealCond ((g ++ e) :: gs) := by
  intro sents
  induction sents with
  | nil =>
    intro cs ci g hg hjd
    refine ⟨[], [], ?_, by simp, rfl, by simp, by simp⟩
    simp only [goChunkLoop, if_neg hjd, List.map, List.append_nil]
  | cons s rest ih =>
    intro cs ci g hg hjd
    by_cases ht : goTrim s = []
    · obtain ⟨e, gs, h1, h2, h3, h4, h5⟩ := ih cs ci g hg hjd
      refine ⟨e, gs, ?_, ?_, h3, h4, h5⟩
      · rw [← h1]
        congr 1
        simp only [goChunkLoop, ht, eq_self_iff_true, if_true]
      · rw [h2]
        simp [ht]
    · by_cases hlt : (joinDot g).length + (goTrim s).length < 1000
      · -- append branch: the sentence joins the running chunk
        have hg' : g ++ [goTrim s] ≠ [] := by simp
        have hjd' : joinDot (g ++ [goTrim s]) ≠ [] := by
          rw [joinDot_snoc g hg]
          simp
        obtain ⟨e, gs, h1, h2, h3, h4, h5⟩ := ih cs ci (g ++ [goTrim s]) hg' hjd'
        have hassoc : g ++ goTrim s :: e = (g ++ [goTrim s]) ++ e :=
          (List.append_assoc g [goTrim s] e).symm
        refine ⟨goTrim s :: e, gs, ?_, ?_, ?_, h4, ?_⟩
        · have harg : goChunkLoop content (s :: rest) (joinDot g) cs ci
              = goChunkLoop content rest (joinDot (g ++ [goTrim s])) cs ci := by
            simp only [goChunkLoop, ht, if_neg ht, if_pos hlt, if_neg hjd,
              if_false]
            rw [joinDot_snoc g hg]
          rw [harg, h1, hassoc]
        · rw [hassoc, h2]
          simp [ht]
        · rw [okFrom_cons, Bool.and_eq_true, decide_eq_true_eq]
          refine ⟨hlt, ?_⟩
          rw [joinDot_snoc g hg] at h3
          exact h3
        · rw [hassoc]
          exact h5
      · -- seal branch: the running chunk is emitted, a new group starts
        have hg' : [goTrim s] ≠ [] := by simp
        have hjd' : joinDot [goTrim s] ≠ [] := ht
        obtain ⟨e', gs', h1, h2, h3, h4, h5⟩ :=
          ih ((match listIndex (content.drop cs) (goTrim s) with
            | none => 0
            | some i => i) + cs) (ci + 1) [goTrim s] hg' hjd'
        refine ⟨[], (goTrim s :: e') :: gs', ?_, ?_, rfl, ?_, ?_⟩
        · have harg : goChunkLoop content (s :: rest) (joinDot g) cs ci
              = (⟨joinDot g, ci, cs,
                  match listLastIndex (content.take
                    ((match listIndex (content.drop cs) (goTrim s) with
                      | none => 0
                      | some i => i) + cs)) (joinDot g) with
                  | none => (match listIndex (content.drop cs) (goTrim s) with
                      | none => 0
                      | some i => i) + cs
                  | some i => i + (joinDot g).length⟩ : GoChunk)
                :: goChunkLoop content rest (goTrim s)
                  ((match listIndex (content.drop cs) (goTrim s) with
                    | none => 0
                    | some i => i) + cs) (ci + 1) := by
            simp only [goChunkLoop, ht, if_neg ht, if_neg hlt, if_neg hjd,
              if_false]
          have h1' : (goChunkLoop content rest (goTrim s)
                ((match listIndex (content.drop cs) (goTrim s) with
                  | none => 0
                  | some i => i) + cs) (ci + 1)).map (fun c => c.content)
              = joinDot (goTrim s :: e') :: gs'.map joinDot := h1
          rw [harg]
          simp only [List.map_cons, List.append_nil]
          rw [h1']
        · have h2' : ((goTrim s :: e') :: gs').flatten
              = goTrim s :: (rest.map goTrim).filter (fun t => !t.isEmpty) := h2
          rw [List.append_nil, List.flatten_cons, h2']
          simp [ht]
        · intro x hx
          rcases List.mem_cons.mp hx with rfl | hxs
          · refine ⟨by simp, ?_⟩
            show okFrom (goTrim s) e' = true
            exact h3
          · exact h4 x hxs
        · rw [List.append_nil, List.chain'_cons]
          have h5' : List.Chain' sealCond ((goTrim s :: e') :: gs') := h5
          refine ⟨?_, h5'⟩
          show (1000 : Nat) ≤ (joinDot g).length
            + (((goTrim s :: e') : List Str).head?.getD []).length
          have hh : (((goTrim s :: e') : List Str).head?.getD []) = goTrim s := rfl
          rw [hh]
          omega

/-- The chunk loop from its initial state (empty running chunk): the
output chunks realise a grouping of the trimmed non-empty sentences. -/
theorem chunkLoop_start (content : Str) :
    ∀ (sents : List Str) (cs ci : Nat),
      ∃ gs : List (List Str),
        (goChunkLoop content sents [] cs ci).map (fun c => c.content)
          = gs.map joinDot ∧
        gs.flatten = (sents.map goTrim).filter (fun t => !t.isEmpty) ∧
        (∀ x ∈ gs, x ≠ [] ∧ okGroup x = true) ∧
        List.Chain' sealCond gs := by
  intro sents
  induction sents with
  | nil =>
    intro cs ci
    refine ⟨[], ?_, by simp, by simp, by simp⟩
    simp [goChunkLoop]
  | cons s rest ih =>
    intro cs ci
    by_cases ht : goTrim s = []
    · obtain ⟨gs, h1, h2, h3, h4⟩ := ih cs ci
      refine ⟨gs, ?_, by rw [h2]; simp [ht], h3, h4⟩
      rw [← h1]
      congr 1
      simp only [goChunkLoop, ht, eq_self_iff_true, if_true]
    · by_cases hlt : ([] : Str).length + (goTrim s).length < 1000
      · obtain ⟨e, gs', h1, h2, h3, h4, h5⟩ :=
          chunkLoop_groups content rest cs ci [goTrim s] (by simp) ht
        have harg : goChunkLoop content (s :: rest) [] cs ci
            = goChunkLoop content rest (goTrim s) cs ci := by
          simp only [goChunkLoop, ht, if_neg ht, if_pos hlt, eq_self_iff_true,
            if_true, if_false]
        refine ⟨(goTrim s :: e) :: gs', ?_, ?_, ?_, ?_⟩
        · have h1' : (goChunkLoop content rest (goTrim s) cs ci).map
              (fun c => c.content)
              = joinDot (goTrim s :: e) :: gs'.map joinDot := h1
          rw [harg, h1']
          rfl
        · have h2' : ((goTrim s :: e) :: gs').flatten
              = goTrim s :: (rest.map goTrim).filter (fun t => !t.isEmpty) := h2
          rw [h2']
          simp [ht]
        · intro x hx
          rcases List.mem_cons.mp hx with rfl | hxs
          · refine ⟨by simp, ?_⟩
            show okFrom (goTrim s) e = true
            exact h3
          · exact h4 x hxs
        · have h5' : List.Chain' sealCond ((goTrim s :: e) :: gs') := h5
          exact h5'
      · obtain ⟨e, gs', h1, h2, h3, h4, h5⟩ :=
          chunkLoop_groups content rest
            ((match listIndex (content.drop cs) (goTrim s) with
              | none => 0
              | some i => i) + cs) ci [goTrim s] (by simp) ht
        have harg : goChunkLoop content (s :: rest) [] cs ci
            = goChunkLoop content rest (goTrim s)
              ((match listIndex (content.drop cs) (goTrim s) with
                | none => 0
                | some i => i) + cs) ci := by
          simp only [goChunkLoop, ht, if_neg ht, if_neg hlt, eq_self_iff_true,
            if_true, if_false]
        refine ⟨(goTrim s :: e) :: gs', ?_, ?_, ?_, ?_⟩
        · have h1' : (goChunkLoop content rest (goTrim s)
              ((match listIndex (content.drop cs) (goTrim s) with
                | none => 0
                | some i => i) + cs) ci).map (fun c => c.content)
              = joinDot (goTrim s :: e) :: gs'.map joinDot := h1
          rw [harg, h1']
          rfl
        · have h2' : ((goTrim s :: e) :: gs').flatten
              = goTrim s :: (rest.map goTrim).filter (fun t => !t.isEmpty) := h2
          rw [h2']
          simp [ht]
        · intro x hx
          rcases List.mem_cons.mp hx with rfl | hxs
          · refine ⟨by simp, ?_⟩
            show okFrom (goTrim s) e = true
            exact h3
          · exact h4 x hxs
        · have h5' : List.Chain' sealCond ((goTrim s :: e) :: gs') := h5
          exact h5'

/-- C7: `chunkDocument` splits on periods, skips blank sentences, and the
chunk contents are exactly the `". "`-joins of a consecutive grouping of
the trimmed non-empty sentences (never splitting mid-sentence, flushing
the trailing group); within a group every append passed the source's
1000-character test (so a sentence of length at least 1000 always forms a
chunk on its own), and consecutive chunks are separated by the seal
condition reaching the threshold. -/
theorem chunkDocument_sentence_groups (content : Str) :
    ∃ gs : List (List Str),
      chunkContents content = gs.map joinDot ∧
      gs.flatten = goSentences content ∧
      (∀ g ∈ gs, g ≠ [] ∧ okGroup g = true) ∧
      List.Chain' sealCond gs ∧
      (∀ g ∈ gs, ∀ s ∈ g, 1000 ≤ s.length → g = [s]) := by
  obtain ⟨gs, h1, h2, h3, h4⟩ := chunkLoop_start content (splitOnDot content) 0 0
  exact ⟨gs, h1, h2, h3, h4, fun g hg => okGroup_big_singleton (h3 g hg).2⟩

/-! ### C3: at-most-one worker claim per queue item -/

theorem setStatus_ids (items : List PoolItem) (i : Nat) (st : Str) :
    (setStatus items i st).map (fun it => it.id) = items.map (fun it => it.id) := by
  unfold setStatus
  rw [List.map_map]
  apply List.map_congr_left
  intro it _
  simp only [Function.comp]
  split <;> rfl

theorem statusOf_set_self : ∀ (items : List PoolItem) (i : Nat) (st : Str),
    statusOf (setStatus items i st) i = (statusOf items i).map (fun _ => st)
  | [], _, _ => rfl
  | it :: t, i, st => by
    by_cases h : (it.id == i) = true
    · simp only [statusOf, setStatus, List.map_cons, h, if_true, List.find?]
      rfl
    · have hf : (it.id == i) = false := by simpa using h
      simp only [statusOf, setStatus, List.map_cons, hf, Bool.false_eq_true,
        if_false, List.find?]
      exact statusOf_set_self t i st

theorem statusOf_set_other (items : List PoolItem) {i j : Nat} (hne : j ≠ i)
    (st : Str) : statusOf (setStatus items i st) j = statusOf items j := by
  induction items with
  | nil => rfl
  | cons it t ih =>
    by_cases h : (it.id == i) = true
    · have heq : it.id = i := by simpa using h
      have hj : (it.id == j) = false := by
        rw [heq]
        simp only [beq_eq_false_iff_ne, ne_eq]
        exact fun hh => hne hh.symm
      simp only [statusOf, setStatus, List.map_cons, h, if_true, List.find?]
      rw [hj]
      exact ih
    · have hf : (it.id == i) = false := by simpa using h
      simp only [statusOf, setStatus, List.map_cons, hf, Bool.false_eq_true,
        if_false, List.find?]
      by_cases hj : (it.id == j) = true
      · rw [hj]
      · have hjf : (it.id == j) = false := by simpa using hj
        rw [hjf]
        exact ih

theorem statusOf_mem_nodup : ∀ {items : List PoolItem},
    (items.map (fun it => it.id)).Nodup → ∀ {it : PoolItem}, it ∈ items →
    statusOf items it.id = some it.status := by
  intro items
  induction items with
  | nil => intro _ it h; cases h
  | cons a t ih =>
    intro hnd it hmem
    rw [List.map_cons, List.nodup_cons] at hnd
    rcases List.mem_cons.mp hmem with rfl | hmt
    · simp only [statusOf, List.find?]
      rw [show (it.id == it.id) = true by simp]
      rfl
    · have hne : (a.id == it.id) = false := by
        have : it.id ∈ t.map (fun x => x.id) := List.mem_map_of_mem _ hmt
        simp only [beq_eq_false_iff_ne, ne_eq]
        intro hh
        exact hnd.1 (hh ▸ this)
      simp only [statusOf, List.find?]
      rw [hne]
      exact ih hnd.2 hmt

theorem statusOf_isSome_of_mem {items : List PoolItem} {it : PoolItem}
    (h : it ∈ items) : (statusOf items it.id).isSome = true := by
  rcases hfind : items.find? (fun it2 => it2.id == it.id) with _ | x
  · exfalso
    have hall := List.find?_eq_none.mp hfind it h
    simp at hall
  · unfold statusOf
    rw [hfind]
    rfl

theorem firstPending_mem {items : List PoolItem} {it : PoolItem}
    (h : firstPending items = some it) : it ∈ items :=
  List.mem_of_find?_eq_some h

theorem firstPending_status {items : List PoolItem} {it : PoolItem}
    (h : firstPending items = some it) : it.status = "pending".toList := by
  have := (List.find?_eq_some.mp h).1
  simpa using this

theorem processing_ne_pending :
    ("processing".toList : Str) ≠ "pending".toList := by decide

theorem terminal_ne_pending (ok : Bool) :
    ((if ok then "completed".toList else "failed".toList) : Str)
      ≠ "pending".toList := by
  cases ok <;> decide

/-- Setting a never-`pending` status keeps the target off `pending`, and
other items are untouched. -/
theorem statusOf_set_not_pending {items : List PoolItem} {i j : Nat} {st : Str}
    (hst : st ≠ "pending".toList)
    (hj : statusOf items j ≠ some "pending".toList) :
    statusOf (setStatus items i st) j ≠ some "pending".toList := by
  by_cases hij : j = i
  · subst hij
    rw [statusOf_set_self]
    rcases statusOf items j with _ | x
    · simp
    · simpa using hst
  · rw [statusOf_set_other items hij]
    exact hj

theorem step_wf {s s' : PoolSt} {e : PoolEv} (hwf : Wellformed s)
    (hst : PoolStep s e s') : Wellformed s' := by
  obtain ⟨hnd, hheld, hmx⟩ := hwf
  cases hst with
  | claimItem hw hfp =>
    rename_i w it
    refine ⟨by rw [setStatus_ids]; exact hnd, ?_, ?_⟩
    · intro w' j hj
      simp only [updHold] at hj
      dsimp only
      by_cases hww : w' = w
      · rw [if_pos hww] at hj
        have hji : j = it.id := (Option.some.inj hj).symm
        subst hji
        rw [statusOf_set_self]
        have hsm := statusOf_isSome_of_mem (firstPending_mem hfp)
        rcases hx : statusOf s.items it.id with _ | x
        · rw [hx] at hsm
          simp at hsm
        · intro hcontra
          exact processing_ne_pending (Option.some.inj hcontra)
      · rw [if_neg hww] at hj
        have holdj := hheld w' j hj
        by_cases hji : j = it.id
        · subst hji
          exfalso
          apply holdj
          have hmem := statusOf_mem_nodup hnd (firstPending_mem hfp)
          rw [firstPending_status hfp] at hmem
          exact hmem
        · rw [statusOf_set_other s.items hji]
          exact holdj
    · intro w1 w2 j hne h1 h2
      simp only [updHold] at h1 h2
      by_cases hw1 : w1 = w <;> by_cases hw2 : w2 = w
      · exact hne (hw1.trans hw2.symm)
      · rw [if_pos hw1] at h1
        rw [if_neg hw2] at h2
        have hji : j = it.id := (Option.some.inj h1).symm
        subst hji
        apply hheld w2 _ h2
        have hmem := statusOf_mem_nodup hnd (firstPending_mem hfp)
        rw [firstPending_status hfp] at hmem
        exact hmem
      · rw [if_neg hw1] at h1
        rw [if_pos hw2] at h2
        have hji : j = it.id := (Option.some.inj h2).symm
        subst hji
        apply hheld w1 _ h1
        have hmem := statusOf_mem_nodup hnd (firstPending_mem hfp)
        rw [firstPending_status hfp] at hmem
        exact hmem
      · rw [if_neg hw1] at h1
        rw [if_neg hw2] at h2
        exact hmx w1 w2 j hne h1 h2
  | beginProcess hw =>
    exact ⟨by rw [setStatus_ids]; exact hnd,
      fun w' j hj => statusOf_set_not_pending processing_ne_pending (hheld w' j hj),
      hmx⟩
  | finishItem hw =>
    exact ⟨by rw [setStatus_ids]; exact hnd,
      fun w' j hj => statusOf_set_not_pending (terminal_ne_pending _) (hheld w' j hj),
      hmx⟩
  | releaseItem hw =>
    rename_i w i
    refine ⟨hnd, ?_, ?_⟩
    · intro w' j hj
      simp only [updHold] at hj
      by_cases hww : w' = w
      · rw [if_pos hww] at hj
        cases hj
      · rw [if_neg hww] at hj
        exact hheld w' j hj
    · intro w1 w2 j hne h1 h2
      simp only [updHold] at h1 h2
      by_cases hw1 : w1 = w
      · rw [if_pos hw1] at h1
        cases h1
      · by_cases hw2 : w2 = w
        · rw [if_pos hw2] at h2
          cases h2
        · rw [if_neg hw1] at h1
          rw [if_neg hw2] at h2
          exact hmx w1 w2 j hne h1 h2

theorem statusOf_after_set_ne_pending (items : List PoolItem) (i : Nat)
    {st : Str} (hst : st ≠ "pending".toList) :
    statusOf (setStatus items i st) i ≠ some "pending".toList := by
  rw [statusOf_set_self]
  rcases statusOf items i with _ | x
  · simp
  · intro hcontra
    exact hst (Option.some.inj hcontra)

theorem step_not_pending {s s' : PoolSt} {e : PoolEv} {i : Nat}
    (hst : PoolStep s e s')
    (h : statusOf s.items i ≠ some "pending".toList) :
    statusOf s'.items i ≠ some "pending".toList := by
  cases hst with
  | claimItem hw hfp =>
    exact statusOf_set_not_pending processing_ne_pending h
  | beginProcess hw =>
    exact statusOf_set_not_pending processing_ne_pending h
  | finishItem hw =>
    exact statusOf_set_not_pending (terminal_ne_pending _) h
  | releaseItem hw => exact h

theorem exec_wf : ∀ (tr : List PoolEv) (s s' : PoolSt),
    Wellformed s → PoolExec s tr s' → Wellformed s'
  | [], _, _, hwf, hex => by
    cases hex
    exact hwf
  | _ :: tr, s, s', hwf, hex => by
    cases hex with
    | step hstep hrest => exact exec_wf tr _ s' (step_wf hwf hstep) hrest

theorem exec_claims_zero : ∀ (tr : List PoolEv) (s s' : PoolSt) (i : Nat),
    Wellformed s → PoolExec s tr s' →
    statusOf s.items i ≠ some "pending".toList → claimCount i tr = 0
  | [], _, _, _, _, _, _ => rfl
  | e :: tr, s, s', i, hwf, hex, h => by
    cases hex with
    | step hstep hrest =>
      have hwf2 := step_wf hwf hstep
      have h2 := step_not_pending hstep h
      have hrec := exec_claims_zero tr _ s' i hwf2 hrest h2
      cases hstep with
      | claimItem hw hfp =>
        rename_i w it
        have hji : (it.id == i) = false := by
          by_contra hbb
          have hbeq : (it.id == i) = true := by simpa using hbb
          have heq : it.id = i := by simpa using hbeq
          apply h
          have hmem := statusOf_mem_nodup hwf.1 (firstPending_mem hfp)
          rw [firstPending_status hfp] at hmem
          rw [← heq]
          exact hmem
        simp only [claimCount, List.filter_cons] at hrec ⊢
        rw [if_neg (by simp [hji])]
        exact hrec
      | beginProcess hw =>
        simpa only [claimCount, List.filter_cons, Bool.false_eq_true,
          if_false] using hrec
      | finishItem hw =>
        simpa only [claimCount, List.filter_cons, Bool.false_eq_true,
          if_false] using hrec
      | releaseItem hw =>
        simpa only [claimCount, List.filter_cons, Bool.false_eq_true,
          if_false] using hrec

theorem exec_claims_le_one : ∀ (tr : List PoolEv) (s s' : PoolSt) (i : Nat),
    Wellformed s → PoolExec s tr s' → claimCount i tr ≤ 1
  | [], _, _, _, _, _ => by simp [claimCount]
  | e :: tr, s, s', i, hwf, hex => by
    cases hex with
    | step hstep hrest =>
      have hwf2 := step_wf hwf hstep
      cases hstep with
      | claimItem hw hfp =>
        rename_i w it
        by_cases hji : (it.id == i) = true
        · have heq : it.id = i := by simpa using hji
          have hz : claimCount i tr = 0 := by
            apply exec_claims_zero tr _ s' i hwf2 hrest
            dsimp only
            rw [← heq]
            exact statusOf_after_set_ne_pending s.items it.id
              processing_ne_pending
          simp only [claimCount, List.filter_cons] at hz ⊢
          rw [if_pos (by simp [hji])]
          simp only [List.length_cons]
          omega
        · have hjf : (it.id == i) = false := by simpa using hji
          have hrec := exec_claims_le_one tr _ s' i hwf2 hrest
          simp only [claimCount, List.filter_cons] at hrec ⊢
          rw [if_neg (by simp [hjf])]
          exact hrec
      | beginProcess hw =>
        have hrec := exec_claims_le_one tr _ s' i hwf2 hrest
        simpa only [claimCount, List.filter_cons, Bool.false_eq_true,
          if_false] using hrec
      | finishItem hw =>
        have hrec := exec_claims_le_one tr _ s' i hwf2 hrest
        simpa only [claimCount, List.filter_cons, Bool.false_eq_true,
          if_false] using hrec
      | releaseItem hw =>
        have hrec := exec_claims_le_one tr _ s' i hwf2 hrest
        simpa only [claimCount, List.filter_cons, Bool.false_eq_true,
          if_false] using hrec

theorem exec_no_claim : ∀ (tr : List PoolEv) (s s' : PoolSt) (i : Nat),
    PoolExec s tr s' → claimCount i tr = 0 → (∀ w, s.hold w ≠ some i) →
    statusOf s'.items i = statusOf s.items i ∧ (∀ w, s'.hold w ≠ some i)
  | [], s, s', i, hex, _, hh => by
    cases hex
    exact ⟨rfl, hh⟩
  | e :: tr, s, s', i, hex, hc, hh => by
    cases hex with
    | step hstep hrest =>
      cases hstep with
      | claimItem hw hfp =>
        rename_i w it
        have hji : (it.id == i) = false := by
          by_contra hbb
          have hbeq : (it.id == i) = true := by simpa using hbb
          simp only [claimCount, List.filter_cons] at hc
          rw [if_pos (by simp [hbeq])] at hc
          simp at hc
        have hne : it.id ≠ i := by simpa using hji
        have hc' : claimCount i tr = 0 := by
          simp only [claimCount, List.filter_cons] at hc
          rw [if_neg (by simp [hji])] at hc
          exact hc
        have hh2 : ∀ w',
            (updHold s.hold w (some it.id)) w' ≠ some i := by
          intro w'
          simp only [updHold]
          by_cases hww : w' = w
          · rw [if_pos hww]
            intro hcon
            exact hne (Option.some.inj hcon)
          · rw [if_neg hww]
            exact hh w'
        obtain ⟨ha, hb⟩ := exec_no_claim tr _ s' i hrest hc' hh2
        refine ⟨?_, hb⟩
        rw [ha]
        exact statusOf_set_other s.items (fun hcon => hne hcon.symm) _
      | beginProcess hw =>
        rename_i w j
        have hne : j ≠ i := fun hji => hh w (hji ▸ hw)
        have hc' : claimCount i tr = 0 := by
          simp only [claimCount, List.filter_cons, Bool.false_eq_true,
            if_false] at hc
          exact hc
        obtain ⟨ha, hb⟩ := exec_no_claim tr _ s' i hrest hc' hh
        refine ⟨?_, hb⟩
        rw [ha]
        exact statusOf_set_other s.items (fun hcon => hne hcon.symm) _
      | finishItem hw =>
        rename_i w j ok
        have hne : j ≠ i := fun hji => hh w (hji ▸ hw)
        have hc' : claimCount i tr = 0 := by
          simp only [claimCount, List.filter_cons, Bool.false_eq_true,
            if_false] at hc
          exact hc
        obtain ⟨ha, hb⟩ := exec_no_claim tr _ s' i hrest hc' hh
        refine ⟨?_, hb⟩
        rw [ha]
        exact statusOf_set_other s.items (fun hcon => hne hcon.symm) _
      | releaseItem hw =>
        rename_i w j
        have hc' : claimCount i tr = 0 := by
          simp only [claimCount, List.filter_cons, Bool.false_eq_true,
            if_false] at hc
          exact hc
        have hh2 : ∀ w', (updHold s.hold w none) w' ≠ some i := by
          intro w'
          simp only [updHold]
          by_cases hww : w' = w
          · rw [if_pos hww]
            exact fun hcon => Option.noConfusion hcon
          · rw [if_neg hww]
            exact hh w'
        obtain ⟨ha, hb⟩ := exec_no_claim tr _ s' i hrest hc' hh2
        exact ⟨ha, hb⟩

/-- C3: in every interleaved execution of the worker pool from a
well-formed state in which item `i` is `pending` and unclaimed, the item
is claimed (transitions `pending` to `processing`) at most once, exactly
once whenever it reaches a terminal status, and no two workers ever hold
the same item simultaneously. -/
theorem queue_claim_exactly_once (s0 : PoolSt) (tr : List PoolEv) (s1 : PoolSt)
    (i : Nat) (hwf : Wellformed s0)
    (hunheld : ∀ w, s0.hold w ≠ some i)
    (hpend : statusOf s0.items i = some "pending".toList)
    (hex : PoolExec s0 tr s1) :
    claimCount i tr ≤ 1 ∧
    ((statusOf s1.items i = some "completed".toList ∨
      statusOf s1.items i = some "failed".toList) → claimCount i tr = 1) ∧
    (∀ w1 w2 j, w1 ≠ w2 → s1.hold w1 = some j → s1.hold w2 = some j →
      False) := by
  have hle := exec_claims_le_one tr s0 s1 i hwf hex
  refine ⟨hle, ?_, (exec_wf tr s0 s1 hwf hex).2.2⟩
  intro hterm
  rcases Nat.eq_zero_or_pos (claimCount i tr) with hz | hp
  · exfalso
    have hsame := (exec_no_claim tr s0 s1 i hex hz hunheld).1
    rw [hpend] at hsame
    rcases hterm with ht | ht <;> rw [ht] at hsame <;>
      exact absurd (Option.some.inj hsame) (by decide)
  · omega

/-- Witness: C3 on a concrete pool run claiming and completing one item. -/
theorem queue_claim_exactly_once_check :
    claimCount 1 [PoolEv.claimItem 0 1, PoolEv.beginProcess 0 1,
      PoolEv.finishItem 0 1 true, PoolEv.releaseItem 0 1] ≤ 1 ∧
    ((statusOf [(⟨1, "completed".toList⟩ : PoolItem)] 1
        = some "completed".toList ∨
      statusOf [(⟨1, "completed".toList⟩ : PoolItem)] 1
        = some "failed".toList) →
      claimCount 1 [PoolEv.claimItem 0 1, PoolEv.beginProcess 0 1,
        PoolEv.finishItem 0 1 true, PoolEv.releaseItem 0 1] = 1) ∧
    (∀ w1 w2 j, w1 ≠ w2 →
      updHold (updHold (fun _ => none) 0 (some 1)) 0 none w1 = some j →
      updHold (updHold (fun _ => none) 0 (some 1)) 0 none w2 = some j →
      False) := by
  have hex : PoolExec (⟨[⟨1, "pending".toList⟩], fun _ => none⟩ : PoolSt)
      [PoolEv.claimItem 0 1, PoolEv.beginProcess 0 1,
        PoolEv.finishItem 0 1 true, PoolEv.releaseItem 0 1]
      (⟨[⟨1, "completed".toList⟩],
        updHold (updHold (fun _ => none) 0 (some 1)) 0 none⟩ : PoolSt) := by
    apply PoolExec.step
    · exact @PoolStep.claimItem ⟨[⟨1, "pending".toList⟩], fun _ => none⟩ 0
        ⟨1, "pending".toList⟩ rfl rfl
    apply PoolExec.step
    · exact @PoolStep.beginProcess
        ⟨setStatus [⟨1, "pending".toList⟩] 1 "processing".toList,
          updHold (fun _ => none) 0 (some 1)⟩ 0 1 rfl
    apply PoolExec.step
    · exact @PoolStep.finishItem
        ⟨setStatus (setStatus [⟨1, "pending".toList⟩] 1 "processing".toList) 1
          "processing".toList,
          updHold (fun _ => none) 0 (some 1)⟩ 0 1 true rfl
    apply PoolExec.step
    · exact @PoolStep.releaseItem
        ⟨setStatus (setStatus (setStatus [⟨1, "pending".toList⟩] 1
          "processing".toList) 1 "processing".toList) 1 "completed".toList,
          updHold (fun _ => none) 0 (some 1)⟩ 0 1 rfl
    exact PoolExec.done
  exact queue_claim_exactly_once
    (⟨[⟨1, "pending".toList⟩], fun _ => none⟩ : PoolSt) _ _ 1
    ⟨by decide, fun w i h => Option.noConfusion h,
      fun w1 w2 j hne h1 h2 => Option.noConfusion h1⟩
    (fun w h => Option.noConfusion h) rfl hex

/-- Witness: C7 at a concrete document. -/
theorem chunkDocument_sentence_groups_check :
    ∃ gs : List (List Str),
      chunkContents "Ab ab. Cd cd.".toList = gs.map joinDot ∧
      gs.flatten = goSentences "Ab ab. Cd cd.".toList ∧
      (∀ g ∈ gs, g ≠ [] ∧ okGroup g = true) ∧
      List.Chain' sealCond gs ∧
      (∀ g ∈ gs, ∀ s ∈ g, 1000 ≤ s.length → g = [s]) :=
  chunkDocument_sentence_groups "Ab ab. Cd cd.".toList

end RagSvc
